import Mathlib

/-!
Verification of the motion-planning core of `scripts/load_robot.py`
(class `LoadRobot`) from the `manipulator_codesign` repository.

The Python code is shallowly embedded over exact real arithmetic:
`numpy` float arrays become lists (or matrices) of real numbers, `np.pi`
becomes `Real.pi`, and elementwise `np.where` operations become
`List.map` of the corresponding scalar function.  External collaborators
(the PyBullet kinematics layer and the `pybullet_planning` RRT planner)
appear as explicit function parameters or `Option`-valued inputs, exactly
at the boundaries where the Python code calls into them.
-/

namespace LoadRobot

/-- Scalar step of `LoadRobot.clip_joint_vals` (`load_robot.py`, lines
132-143).  The Python code applies two elementwise `np.where` passes with
`limit = 3.0`: first add `2*pi` to every value below `-3.0`, then subtract
`2*pi` from every value above `3.0`. -/
noncomputable def clipVal (x : ℝ) : ℝ :=
  let y := if x < -3 then x + 2 * Real.pi else x
  if y > 3 then y - 2 * Real.pi else y

/-- `LoadRobot.clip_joint_vals` (`load_robot.py`, lines 132-143): the two
`np.where` passes act independently on each component of the joint
configuration, so the function is the elementwise map of `clipVal`. -/
noncomputable def clip_joint_vals (joint_config : List ℝ) : List ℝ :=
  joint_config.map clipVal

/-- Quaternion in PyBullet storage order `[x, y, z, w]` (the vector part
first, the scalar `w` last).  Indexing `q[0]` in the Python code reads the
`x` component. -/
structure Quat where
  x : ℝ
  y : ℝ
  z : ℝ
  w : ℝ

/-- Hamilton product of two rotations held in `[x, y, z, w]` storage.
Models the orientation returned by the external call
`con.multiplyTransforms([0, 0, 0], qA, [0, 0, 0], qB)` in
`quaternion_angle_difference` (line 378): composing the rotation `qB`
after `qA` at the origin yields the quaternion product `qA * qB`. -/
def quatMul (p q : Quat) : Quat where
  x := p.w * q.x + p.x * q.w + p.y * q.z - p.z * q.y
  y := p.w * q.y - p.x * q.z + p.y * q.w + p.z * q.x
  z := p.w * q.z + p.x * q.y - p.y * q.x + p.z * q.w
  w := p.w * q.w - p.x * q.x - p.y * q.y - p.z * q.z

/-- Elementwise multiplication `q1 * np.array([1, -1, -1, -1])` performed
by `LoadRobot.quaternion_angle_difference` (line 377).  In PyBullet
`[x, y, z, w]` storage this negates the `y`, `z` and `w` components. -/
def negMask (q : Quat) : Quat where
  x := q.x
  y := -q.y
  z := -q.z
  w := -q.w

/-- `np.clip(v, -1.0, 1.0)` from line 380. -/
noncomputable def clip1 (v : ℝ) : ℝ := min 1 (max (-1) v)

/-- `LoadRobot.quaternion_angle_difference` (`load_robot.py`, lines
375-381): the angle `2 * arccos(clip(q_relative[0], -1, 1))`, where
`q_relative` is the product of the masked `q1` with `q2` and
`q_relative[0]` is the `x` component in PyBullet storage order. -/
noncomputable def quaternion_angle_difference (q1 q2 : Quat) : ℝ :=
  2 * Real.arccos (clip1 (quatMul (negMask q1) q2).x)

/-- Euclidean norm `np.linalg.norm(a - b)` of the difference of two
3-vectors, used for the position error on line 384. -/
noncomputable def posDiff (a b : Fin 3 → ℝ) : ℝ :=
  Real.sqrt (∑ i, (a i - b i) ^ 2)

/-- `LoadRobot.check_pose_within_tolerance` (`load_robot.py`, lines
383-386): position error at most `pos_tolerance` and
`|pi - quaternion_angle_difference(target, final)|` at most
`ori_tolerance`. -/
noncomputable def check_pose_within_tolerance
    (final_position : Fin 3 → ℝ) (final_orientation : Quat)
    (target_position : Fin 3 → ℝ) (target_orientation : Quat)
    (pos_tolerance ori_tolerance : ℝ) : Prop :=
  posDiff final_position target_position ≤ pos_tolerance ∧
  |Real.pi - quaternion_angle_difference target_orientation final_orientation|
    ≤ ori_tolerance

/-- Sample `t` of `np.linspace(a, b, n)`: `n` evenly spaced values from
`a` to `b` inclusive, with `np.linspace(a, b, 1) = [a]`. -/
noncomputable def linspaceVal (a b : ℝ) (n t : ℕ) : ℝ :=
  if n = 1 then a else a + (b - a) * (t : ℝ) / ((n : ℝ) - 1)

/-- `np.linspace(a, b, n)` as a list of `n` samples. -/
noncomputable def linspaceL (a b : ℝ) (n : ℕ) : List ℝ :=
  (List.range n).map (linspaceVal a b n)

/-- `LoadRobot.linear_interp_path` (`load_robot.py`, lines 145-165):
optionally normalize both endpoint configurations with
`clip_joint_vals`, build `np.linspace(start, end, steps)` per joint, and
transpose (`zip(*...)`) into a list of `steps` configurations. -/
noncomputable def linear_interp_path (start_positions end_positions : List ℝ)
    (steps : ℕ) (limit_joints : Bool) : List (List ℝ) :=
  (List.range steps).map (fun t =>
    ((if limit_joints then clip_joint_vals start_positions else start_positions).zip
      (if limit_joints then clip_joint_vals end_positions else end_positions)).map
      (fun p => linspaceVal p.1 p.2 steps t))

/-- Value at parameter `u` of the external scipy collaborator
`CubicSpline([0, 1], [a, b], bc_type=clamped)` called on line 312: the
unique cubic `h` with `h 0 = a`, `h 1 = b` and zero derivative at both
knots, namely the Hermite cubic `a + (b - a) * (3 u^2 - 2 u^3)`. -/
noncomputable def cubicVal (a b u : ℝ) : ℝ :=
  a + (b - a) * (3 * u ^ 2 - 2 * u ^ 3)

/-- `LoadRobot.cubic_interp_path` (`load_robot.py`, lines 291-315):
optionally normalize both endpoint configurations, sample each joint's
two-knot clamped cubic spline at `t = np.linspace(0, 1, steps)`, and
transpose into a list of `steps` configurations. -/
noncomputable def cubic_interp_path (start_positions end_positions : List ℝ)
    (steps : ℕ) (limit_joints : Bool) : List (List ℝ) :=
  (List.range steps).map (fun t =>
    ((if limit_joints then clip_joint_vals start_positions else start_positions).zip
      (if limit_joints then clip_joint_vals end_positions else end_positions)).map
      (fun p => cubicVal p.1 p.2 (linspaceVal 0 1 steps t)))

/-- Piecewise-linear interpolation `np.interp(x, np.arange(len(col)), col)`
over the integer grid `0, 1, ..., len(col) - 1` (line 335): the value is
clamped at both ends of the grid, and between grid points `k` and `k + 1`
it is the linear blend of `col[k]` and `col[k+1]`. -/
noncomputable def interpGrid (col : List ℝ) (x : ℝ) : ℝ :=
  if x ≤ 0 then col.getD 0 0
  else if ((col.length : ℝ) - 1) ≤ x then col.getLastD 0
  else
    let k := (⌊x⌋).toNat
    col.getD k 0 + (x - (k : ℝ)) * (col.getD (k + 1) 0 - col.getD k 0)

/-- `LoadRobot.sample_path_to_length` (`load_robot.py`, lines 317-335):
interpolate each of the `m` columns of the rectangular path array at
`new_indices = np.linspace(0, L - 1, desired_length)` and transpose back
to rows.  The column count `m` is `path.shape[1]`, the common length of
the rows. -/
noncomputable def sample_path_to_length (path : List (List ℝ))
    (desired_length : ℕ) : List (List ℝ) :=
  (linspaceL 0 ((path.length : ℝ) - 1) desired_length).map (fun x =>
    (List.range path.headI.length).map (fun i =>
      interpGrid (path.map (fun r => r.getD i 0)) x))

/-- `LoadRobot.rrt_path` (`load_robot.py`, lines 353-373).  The outcome of
the external `rrt_connect` planner is the parameter `raw`: `none` models
the planner returning `None` after exhausting its iteration budget and
`some p` models a found raw path.  The Python code tests `if path:`, so a
`None` (and likewise an empty-list) result is returned unchanged, and only
a non-empty raw path is resampled to `steps` rows. -/
noncomputable def rrt_path (raw : Option (List (List ℝ))) (steps : ℕ) :
    Option (List (List ℝ)) :=
  match raw with
  | none => none
  | some p => if p.isEmpty then some p else some (sample_path_to_length p steps)

/-- Vertical stack `np.vstack((jac_t, jac_r))` (line 401) of the `3 x n`
translational and rotational Jacobians returned by the external
`con.calculateJacobian` call on line 400, giving the full `6 x n`
Jacobian. -/
def stackJac (n : ℕ) (jac_t jac_r : Matrix (Fin 3) (Fin n) ℝ) :
    Matrix (Fin 6) (Fin n) ℝ :=
  Matrix.of ![jac_t 0, jac_t 1, jac_t 2, jac_r 0, jac_r 1, jac_r 2]

/-- Planar reduction of the Jacobian (lines 403-406): rows `1:3` of
`jac_t` and row `0` of `jac_r`, stacked into a `3 x n` matrix. -/
def planarJac (n : ℕ) (jac_t jac_r : Matrix (Fin 3) (Fin n) ℝ) :
    Matrix (Fin 3) (Fin n) ℝ :=
  Matrix.of ![jac_t 1, jac_t 2, jac_r 0]

/-- `LoadRobot.calculate_manipulability` (`load_robot.py`, lines
398-412): the manipulability measure `np.sqrt(np.linalg.det(J @ J.T))`
where `J` is the planar (`3 x n`) or full (`6 x n`) stacked Jacobian of
the configuration.  The Jacobian itself comes from the external
kinematics collaborator, so it is a parameter here. -/
noncomputable def calculate_manipulability (n : ℕ)
    (jac_t jac_r : Matrix (Fin 3) (Fin n) ℝ) (planar : Bool) : ℝ :=
  if planar then
    Real.sqrt (planarJac n jac_t jac_r * (planarJac n jac_t jac_r).transpose).det
  else
    Real.sqrt (stackJac n jac_t jac_r * (stackJac n jac_t jac_r).transpose).det

/-- Row `i` of `poses = np.linspace(start_pose, end_pose, num_midpoints + 2)`
(`load_robot.py`, line 224, with `num_midpoints = 25` from line 223):
elementwise linear interpolation of the pose scalars over 27 samples. -/
noncomputable def poseAt (start_pose end_pose : List ℝ) (i : ℕ) : List ℝ :=
  List.zipWith (fun a b => linspaceVal a b 27 i) start_pose end_pose

/-- Elementwise affine row combination `(1 - t) * a + t * b`: one row of
`np.outer(1 - t, joint_traj[i]) + np.outer(t, joint_traj[i + 1])`
(line 266), also the smoothing updates on lines 282 and 287. -/
noncomputable def blend (a b : List ℝ) (t : ℝ) : List ℝ :=
  List.zipWith (fun x y => (1 - t) * x + t * y) a b

/-- `segment_steps` for segment `i` (lines 251-260): the base points per
segment `(steps - 1) // 26`, plus one extra point for the first
`(steps - 1) % 26` segments, plus one to include the segment endpoint. -/
def segSteps (steps i : ℕ) : ℕ :=
  (steps - 1) / 26 + (if i < (steps - 1) % 26 then 1 else 0) + 1

/-- Interpolated segment `i` between waypoints `traj i` and `traj (i + 1)`
(lines 262-267): affine blends at `t = np.linspace(0, 1, segment_steps)`. -/
noncomputable def segmentOf (traj : ℕ → List ℝ) (steps i : ℕ) :
    List (List ℝ) :=
  (linspaceL 0 1 (segSteps steps i)).map (blend (traj i) (traj (i + 1)))

/-- `np.vstack([seg if idx == 0 else seg[1:] ...])` (line 270): keep the
first segment whole and drop the first row of every later segment. -/
def combineSegs {α : Type*} (segs : List (List α)) : List α :=
  match segs with
  | [] => []
  | s :: rest => s ++ (rest.map (fun seg => seg.drop 1)).flatten

/-- The endpoint assignments `combined_points[0, :] = start` and
`combined_points[-1, :] = end` (lines 273-274). -/
def setEnds {α : Type*} (l : List α) (a b : α) : List α :=
  (l.set 0 a).set (l.length - 1) b

/-- Transition length `int(np.floor(steps * 0.4))` (line 279), modelled
with exact arithmetic as `2 * steps / 5` in natural division (`0.4` is a
binary float, but `floor(steps * 0.4)` agrees with `2 * steps / 5` for
the step counts used by the code, e.g. `steps = 250` gives `100`). -/
def transitionSteps (steps : ℕ) : ℕ := 2 * steps / 5

/-- First smoothing pass (lines 280-282): each row `1 ≤ i < ts` becomes
`(1 - alpha) * trajectory[0] + alpha * trajectory[i]` with
`alpha = i / ts`.  Row `0` is never written by the loop, so reading
`trajectory[0]` from the input list is faithful to the sequential
in-place update. -/
noncomputable def smoothStart (ts : ℕ) (l : List (List ℝ)) :
    List (List ℝ) :=
  l.mapIdx (fun i row =>
    if 1 ≤ i ∧ i < ts then blend l.headI row ((i : ℝ) / (ts : ℝ)) else row)

/-- Second smoothing pass (lines 285-287): each row
`steps - ts ≤ i ≤ steps - 2` becomes
`(1 - alpha) * trajectory[i] + alpha * trajectory[-1]` with
`alpha = (i - (steps - ts)) / ts`.  The last row is never written by the
loop and each row is written once, so reading the last row and the
current row from the input list is faithful to the in-place update. -/
noncomputable def smoothEnd (steps ts : ℕ) (l : List (List ℝ)) :
    List (List ℝ) :=
  l.mapIdx (fun i row =>
    if steps - ts ≤ i ∧ i + 2 ≤ steps then
      blend row (l.getLastD [])
        (((i : ℝ) - ((steps - ts : ℕ) : ℝ)) / (ts : ℝ))
    else row)

/-- Waypoint rows `0..26` of `task_and_joint_interp` (lines 219-245):
row `0` is the normalized home configuration, row `26` the normalized end
configuration, and each middle row the normalized solution of the
external IK solver (`LoadRobot.inverse_kinematics`, the parameter `ik`,
taking target position, target orientation and the seed configuration)
for the interpolated pose, seeded with the previous row. -/
noncomputable def waypointTraj (start_pose end_pose : List ℝ)
    (end_config home_config : List ℝ)
    (ik : List ℝ → List ℝ → List ℝ → List ℝ) : ℕ → List ℝ
  | 0 => clip_joint_vals home_config
  | i + 1 =>
    if i + 1 = 26 then clip_joint_vals end_config
    else
      clip_joint_vals
        (ik ((poseAt start_pose end_pose (i + 1)).take 3)
          ((poseAt start_pose end_pose (i + 1)).drop 3)
          (waypointTraj start_pose end_pose end_config home_config ik i))

/-- Post-processing of `task_and_joint_interp` (lines 247-289): build the
26 segments with the evenly distributed step budget, concatenate them
dropping the duplicated boundary row of every segment but the first,
force the endpoint rows, normalize every row with `clip_joint_vals`, and
apply the two boundary smoothing passes. -/
noncomputable def postProcess (traj : ℕ → List ℝ) (steps : ℕ)
    (startRow endRow : List ℝ) : List (List ℝ) :=
  smoothEnd steps (transitionSteps steps)
    (smoothStart (transitionSteps steps)
      ((setEnds (combineSegs ((List.range 26).map (segmentOf traj steps)))
          startRow endRow).map clip_joint_vals))

/-- `LoadRobot.task_and_joint_interp` (`load_robot.py`, lines 218-289)
for the deployed robot, whose six controllable joints match the
hard-coded width 6 of the waypoint trajectory array (line 227). -/
noncomputable def task_and_joint_interp (start_pose end_pose : List ℝ)
    (end_config home_config : List ℝ)
    (ik : List ℝ → List ℝ → List ℝ → List ℝ) (steps : ℕ) :
    List (List ℝ) :=
  postProcess (waypointTraj start_pose end_pose end_config home_config ik)
    steps (clip_joint_vals home_config) (clip_joint_vals end_config)

/-- Numpy assignment `joint_traj[i, :] = v` of a one-dimensional value
into a row of the `(27, 6)` array allocated on line 227: it succeeds when
`v` has exactly 6 entries, or by numpy broadcasting when `v` is a single
scalar; any other length raises a shape mismatch, modelled as `none`. -/
def assignRow6 (v : List ℝ) : Option (List ℝ) :=
  if v.length = 6 then some v
  else if v.length = 1 then some (List.replicate 6 (v.getD 0 0))
  else none

/-- Call of `LoadRobot.inverse_kinematics` with
`rest_config = list(previous_joint_config)` (line 242) on a robot with
`n` controllable joints: the external solver requires one rest-pose value
per degree of freedom (a JointConfiguration has one entry per
controllable joint), so a seed of any other length is an error, modelled
as `none`; on success the solver returns one value per joint. -/
def ikStep (n : ℕ) (ik : List ℝ → List ℝ → List ℝ → List ℝ)
    (pose : List ℝ) (rest : List ℝ) : Option (List ℝ) :=
  if rest.length = n then some (ik (pose.take 3) (pose.drop 3) rest)
  else none

/-- Middle waypoint rows `0..25` of `task_and_joint_interp` on a robot
with `n` controllable joints, with the shape checks of the IK seed and of
the row assignment made explicit (lines 234-245). -/
noncomputable def trajRowsGen (n : ℕ) (start_pose end_pose : List ℝ)
    (ik : List ℝ → List ℝ → List ℝ → List ℝ) (row0 : List ℝ) :
    ℕ → Option (List ℝ)
  | 0 => some row0
  | i + 1 => do
    let prev ← trajRowsGen n start_pose end_pose ik row0 i
    let sol ← ikStep n ik (poseAt start_pose end_pose (i + 1)) prev
    assignRow6 (clip_joint_vals sol)

/-- `LoadRobot.task_and_joint_interp` generalized over the number `n` of
controllable joints of the loaded robot, making the numpy and PyBullet
shape requirements explicit: the waypoint array is allocated with a
hard-coded width of 6 (line 227) no matter what `n` is, the home, end and
IK rows are assigned into width-6 rows, and every IK call is seeded with
the previous width-6 row.  The result is `none` when any shape check
fails. -/
noncomputable def task_and_joint_interp_gen (n : ℕ)
    (start_pose end_pose : List ℝ) (end_config home_config : List ℝ)
    (ik : List ℝ → List ℝ → List ℝ → List ℝ) (steps : ℕ) :
    Option (List (List ℝ)) := do
  let row0 ← assignRow6 (clip_joint_vals home_config)
  let rowLast ← assignRow6 (clip_joint_vals end_config)
  let _ ← trajRowsGen n start_pose end_pose ik row0 25
  some (postProcess
    (fun i =>
      if i = 26 then rowLast
      else (trajRowsGen n start_pose end_pose ik row0 i).getD [])
    steps row0 rowLast)

end LoadRobot

namespace LoadRobot

theorem clipVal_eval_mid {x : ℝ} (h1 : -3 ≤ x) (h2 : x ≤ 3) : clipVal x = x := by
  unfold clipVal
  simp only [if_neg (show ¬ x < -3 by linarith)]
  rw [if_neg (show ¬ x > 3 by simp only [gt_iff_lt, not_lt]; linarith)]

theorem clipVal_eval_high {x : ℝ} (h1 : -3 ≤ x) (h2 : 3 < x) :
    clipVal x = x - 2 * Real.pi := by
  unfold clipVal
  simp only [if_neg (show ¬ x < -3 by linarith)]
  rw [if_pos (show x > 3 from h2)]

theorem clipVal_eval_low {x : ℝ} (h1 : x < -3) (h2 : x ≤ 3 - 2 * Real.pi) :
    clipVal x = x + 2 * Real.pi := by
  unfold clipVal
  simp only [if_pos h1]
  rw [if_neg (show ¬ x + 2 * Real.pi > 3 by simp only [gt_iff_lt, not_lt]; linarith)]

theorem clipVal_eval_low_roundtrip {x : ℝ} (h1 : x < -3) (h2 : 3 - 2 * Real.pi < x) :
    clipVal x = x := by
  unfold clipVal
  simp only [if_pos h1]
  rw [if_pos (show x + 2 * Real.pi > 3 by simp only [gt_iff_lt]; linarith)]
  ring

theorem clipVal_cases (x : ℝ) :
    clipVal x = x ∨ clipVal x = x + 2 * Real.pi ∨ clipVal x = x - 2 * Real.pi := by
  rcases lt_or_le x (-3) with hlo | hge
  · rcases le_or_lt x (3 - 2 * Real.pi) with hle | hgt
    · exact Or.inr (Or.inl (clipVal_eval_low hlo hle))
    · exact Or.inl (clipVal_eval_low_roundtrip hlo hgt)
  · rcases le_or_lt x 3 with hle | hgt
    · exact Or.inl (clipVal_eval_mid hge hle)
    · exact Or.inr (Or.inr (clipVal_eval_high hge hgt))

/-- C9: each component of the output of `clip_joint_vals` differs from the
corresponding input component by exactly one element of the set consisting
of `-2*pi`, `0` and `2*pi` (so every component keeps its physical angle
modulo one revolution), and a component that already lies in the window
`[-3, 3]` is never moved. -/
theorem C9_clip_shifts_by_one_revolution :
    (∀ cfg : List ℝ,
      List.Forall₂
        (fun x y => y = x ∨ y = x + 2 * Real.pi ∨ y = x - 2 * Real.pi)
        cfg (clip_joint_vals cfg)) ∧
    (∀ x : ℝ, x ∈ Set.Icc (-3 : ℝ) 3 → clipVal x = x) := by
  constructor
  · intro cfg
    unfold clip_joint_vals
    induction cfg with
    | nil => simp
    | cons a l ih => exact List.Forall₂.cons (clipVal_cases a) ih
  · intro x hx
    exact clipVal_eval_mid hx.1 hx.2

/-- Witness for C9 at the concrete configuration `[1]` and component `1`. -/
theorem C9_witness :
    List.Forall₂
      (fun x y => y = x ∨ y = x + 2 * Real.pi ∨ y = x - 2 * Real.pi)
      [(1 : ℝ)] (clip_joint_vals [(1 : ℝ)]) ∧ clipVal 1 = 1 :=
  ⟨C9_clip_shifts_by_one_revolution.1 [(1 : ℝ)],
   C9_clip_shifts_by_one_revolution.2 1 (by constructor <;> norm_num)⟩

/-- C2 fails as stated: on the input configuration `[10]` the single
output component of `clip_joint_vals` is `10 - 2*pi`, which is greater
than `3` (since `pi < 3.15`), hence outside `[-3, 3]`. -/
theorem C2_counterexample :
    ¬ (∀ y ∈ clip_joint_vals [(10 : ℝ)], y ∈ Set.Icc (-3 : ℝ) 3) := by
  intro h
  have h10 : clipVal 10 = 10 - 2 * Real.pi :=
    clipVal_eval_high (by norm_num) (by norm_num)
  have hmem : clipVal 10 ∈ clip_joint_vals [(10 : ℝ)] := by
    simp [clip_joint_vals]
  have hy := h (clipVal 10) hmem
  rw [h10] at hy
  have hpi : Real.pi < 3.15 := Real.pi_lt_d2
  have := hy.2
  nlinarith

/-- C2 amended: every output component of `clip_joint_vals` lies in
`[-3, 3]` provided every input component lies within one revolution of
the window, i.e. in `[-3, 3]`, in `[2*pi - 3, 2*pi + 3]`, or in
`[-2*pi - 3, -2*pi + 3]`.  (A single `±2*pi` shift cannot reach the
window from further away, which is what the counterexample exploits.) -/
theorem C2_amended_clip_bounds (cfg : List ℝ)
    (h : ∀ x ∈ cfg,
      x ∈ Set.Icc (-3 : ℝ) 3 ∨
      x ∈ Set.Icc (2 * Real.pi - 3) (2 * Real.pi + 3) ∨
      x ∈ Set.Icc (-(2 * Real.pi) - 3) (-(2 * Real.pi) + 3)) :
    ∀ y ∈ clip_joint_vals cfg, y ∈ Set.Icc (-3 : ℝ) 3 := by
  intro y hy
  rcases List.mem_map.1 hy with ⟨x, hx, rfl⟩
  have hpi : 3 < Real.pi := Real.pi_gt_three
  rcases h x hx with hmid | hhigh | hlow
  · rw [clipVal_eval_mid hmid.1 hmid.2]
    exact hmid
  · have h3 : 3 < x := by have := hhigh.1; linarith
    rw [clipVal_eval_high (by linarith) h3]
    constructor
    · have := hhigh.1; linarith
    · have := hhigh.2; linarith
  · have hlt : x < -3 := by have := hlow.2; linarith
    rw [clipVal_eval_low hlt (by have := hlow.2; linarith)]
    constructor
    · have := hlow.1; linarith
    · have := hlow.2; linarith

/-- Witness for the amended C2 at the configuration `[4]`, whose single
component lies in `[2*pi - 3, 2*pi + 3]`: the single output component
`clipVal 4` lands in the window. -/
theorem C2_witness : clipVal 4 ∈ Set.Icc (-3 : ℝ) 3 := by
  refine C2_amended_clip_bounds [(4 : ℝ)] ?_ (clipVal 4)
    (by simp [clip_joint_vals])
  intro x hx
  have hx4 : x = 4 := by simpa using hx
  subst hx4
  right; left
  have h1 : Real.pi < 3.15 := Real.pi_lt_d2
  have h2 : 3 < Real.pi := Real.pi_gt_three
  constructor <;> nlinarith

/-- C6 fails as stated: normalization does not commute with adding a full
revolution for every joint value.  At `theta = 4`, `clip_joint_vals`
maps `[4 + 2*pi]` to `[4]` but maps `[4]` to `[4 - 2*pi]`, and these
differ because `pi` is nonzero. -/
theorem C6_counterexample :
    clip_joint_vals [(4 : ℝ) + 2 * Real.pi] ≠ clip_joint_vals [(4 : ℝ)] := by
  have hpi : 0 < Real.pi := Real.pi_pos
  have h1 : clipVal (4 + 2 * Real.pi) = 4 := by
    rw [clipVal_eval_high (by nlinarith) (by nlinarith)]
    ring
  have h2 : clipVal 4 = 4 - 2 * Real.pi :=
    clipVal_eval_high (by norm_num) (by norm_num)
  unfold clip_joint_vals
  simp only [List.map_cons, List.map_nil, h1, h2, ne_eq, List.cons.injEq, and_true]
  intro heq
  nlinarith

/-- C6 amended: `clip_joint_vals` is the identity on every configuration
whose components all lie in `[-3, 3]`, and for every joint value `theta`
that lies in the window `[-3, 3]` (rather than for every real `theta`,
which the counterexample refutes), normalizing `theta + 2*pi` gives the
same result as normalizing `theta`. -/
theorem C6_amended_normalization_idempotence :
    (∀ cfg : List ℝ, (∀ x ∈ cfg, x ∈ Set.Icc (-3 : ℝ) 3) →
      clip_joint_vals cfg = cfg) ∧
    (∀ x : ℝ, x ∈ Set.Icc (-3 : ℝ) 3 →
      clipVal (x + 2 * Real.pi) = clipVal x) := by
  have hpi : 3 < Real.pi := Real.pi_gt_three
  constructor
  · intro cfg h
    unfold clip_joint_vals
    have : ∀ x ∈ cfg, clipVal x = x := by
      intro x hx
      exact clipVal_eval_mid (h x hx).1 (h x hx).2
    calc cfg.map clipVal = cfg.map id := List.map_congr_left this
    _ = cfg := List.map_id cfg
  · intro x hx
    have h1 : clipVal (x + 2 * Real.pi) = x := by
      rw [clipVal_eval_high (by have := hx.1; nlinarith) (by have := hx.1; nlinarith)]
      ring
    rw [h1, clipVal_eval_mid hx.1 hx.2]

/-- Witness for the amended C6 at the configuration `[1]` and the joint
value `theta = 0`. -/
theorem C6_witness :
    clip_joint_vals [(1 : ℝ)] = [(1 : ℝ)] ∧
    clipVal (0 + 2 * Real.pi) = clipVal 0 :=
  ⟨C6_amended_normalization_idempotence.1 [(1 : ℝ)]
      (by intro x hx; simp only [List.mem_singleton] at hx; subst hx
          constructor <;> norm_num),
   C6_amended_normalization_idempotence.2 0 (by constructor <;> norm_num)⟩

theorem relative_x_self (q : Quat) : (quatMul (negMask q) q).x = 0 := by
  simp only [quatMul, negMask]
  ring

/-- C1: when the achieved position equals the target position and the
achieved orientation equals the target orientation,
`check_pose_within_tolerance` holds for all positive tolerances.  The
position error is `0`, and the relative quaternion built on line 378 has
`x` component `0`, so the angle on line 380 is `2 * arccos 0 = pi` and the
orientation error `|pi - pi| = 0`. -/
theorem C1_pose_tolerance_reflexive (p : Fin 3 → ℝ) (q : Quat)
    (pos_tolerance ori_tolerance : ℝ)
    (hp : 0 < pos_tolerance) (ho : 0 < ori_tolerance) :
    check_pose_within_tolerance p q p q pos_tolerance ori_tolerance := by
  constructor
  · have hz : posDiff p p = 0 := by
      unfold posDiff
      simp
    rw [hz]
    linarith
  · unfold quaternion_angle_difference
    rw [relative_x_self]
    have hc : clip1 0 = 0 := by
      unfold clip1
      norm_num
    rw [hc, Real.arccos_zero]
    rw [show 2 * (Real.pi / 2) = Real.pi by ring]
    simp only [sub_self, abs_zero]
    linarith

/-- Witness for C1 at the origin position, the identity quaternion and
tolerances `1`. -/
theorem C1_witness :
    check_pose_within_tolerance (fun _ => 0) ⟨0, 0, 0, 1⟩
      (fun _ => 0) ⟨0, 0, 0, 1⟩ 1 1 :=
  C1_pose_tolerance_reflexive _ _ _ _ (by norm_num) (by norm_num)

theorem length_linspaceL (a b : ℝ) (n : ℕ) : (linspaceL a b n).length = n := by
  unfold linspaceL
  simp

theorem linspaceVal_zero (a b : ℝ) (n : ℕ) : linspaceVal a b n 0 = a := by
  unfold linspaceVal
  split <;> simp

theorem linspaceVal_last (a b : ℝ) {n : ℕ} (h : 2 ≤ n) :
    linspaceVal a b n (n - 1) = b := by
  unfold linspaceVal
  rw [if_neg (by omega)]
  have h2 : (2 : ℝ) ≤ (n : ℝ) := by exact_mod_cast h
  have hne : (n : ℝ) - 1 ≠ 0 := by linarith
  have hc : ((n - 1 : ℕ) : ℝ) = (n : ℝ) - 1 := by
    rw [Nat.cast_sub (by omega), Nat.cast_one]
  rw [hc, mul_div_assoc, div_self hne, mul_one]
  ring

theorem getD_map_range {α : Type*} (f : ℕ → α) (d : α) {n t : ℕ} (h : t < n) :
    ((List.range n).map f).getD t d = f t := by
  rw [List.getD_eq_getElem _ _ (by simpa using h)]
  simp

theorem map_getD_range_self {α : Type*} (l : List α) (d : α) :
    (List.range l.length).map (fun i => l.getD i d) = l := by
  apply List.ext_getElem
  · simp
  · intro i h1 h2
    simp only [List.getElem_map, List.getElem_range]
    exact List.getD_eq_getElem l d h2

theorem getD_map_zero {α β : Type*} [Inhabited α] (f : α → β) (d : β)
    {l : List α} (h : l ≠ []) : (l.map f).getD 0 d = f l.headI := by
  cases l with
  | nil => exact absurd rfl h
  | cons a t => rfl

theorem getLastD_map_of_ne_nil {α β : Type*} (f : α → β) (d : β) (e : α)
    {l : List α} (h : l ≠ []) :
    (l.map f).getLastD d = f (l.getLastD e) := by
  rw [List.getLastD_eq_getLast?, List.getLastD_eq_getLast?, List.getLast?_map,
    List.getLast?_eq_getLast l h]
  rfl

theorem getLastD_mem_of_ne_nil {α : Type*} (d : α) {l : List α} (h : l ≠ []) :
    l.getLastD d ∈ l := by
  rw [List.getLastD_eq_getLast?, List.getLast?_eq_getLast l h]
  exact List.getLast_mem h

theorem headI_mem_of_ne_nil {α : Type*} [Inhabited α] {l : List α}
    (h : l ≠ []) : l.headI ∈ l := by
  cases l with
  | nil => exact absurd rfl h
  | cons a t => exact List.mem_cons_self a t

theorem interpGrid_zero (col : List ℝ) : interpGrid col 0 = col.getD 0 0 := by
  unfold interpGrid
  rw [if_pos le_rfl]

theorem interpGrid_last {col : List ℝ} (h : col ≠ []) :
    interpGrid col ((col.length : ℝ) - 1) = col.getLastD 0 := by
  unfold interpGrid
  by_cases h1 : ((col.length : ℝ) - 1) ≤ 0
  · rw [if_pos h1]
    have hpos : 0 < col.length := List.length_pos.2 h
    have hle1 : (col.length : ℝ) ≤ 1 := by linarith
    have hlen1 : col.length = 1 := by
      have := (Nat.one_le_iff_ne_zero.2 (by omega) : 1 ≤ col.length)
      have hn : col.length ≤ 1 := by exact_mod_cast hle1
      omega
    rcases List.length_eq_one.1 hlen1 with ⟨a, rfl⟩
    rfl
  · rw [if_neg h1, if_pos le_rfl]

theorem sample_getD (path : List (List ℝ)) {S t : ℕ} (h : t < S) :
    (sample_path_to_length path S).getD t [] =
      (List.range path.headI.length).map (fun i =>
        interpGrid (path.map (fun r => r.getD i 0))
          (linspaceVal 0 ((path.length : ℝ) - 1) S t)) := by
  unfold sample_path_to_length linspaceL
  rw [List.map_map]
  exact getD_map_range _ _ h

theorem sample_row_head (path : List (List ℝ)) (hne : path ≠ []) :
    (List.range path.headI.length).map (fun i =>
      interpGrid (path.map (fun r => r.getD i 0)) 0) = path.headI := by
  calc (List.range path.headI.length).map (fun i =>
        interpGrid (path.map (fun r => r.getD i 0)) 0)
      = (List.range path.headI.length).map (fun i => path.headI.getD i 0) := by
        refine List.map_congr_left (fun i _ => ?_)
        rw [interpGrid_zero, getD_map_zero _ _ hne]
    _ = path.headI := map_getD_range_self _ _

theorem sample_row_last (path : List (List ℝ)) (m : ℕ) (hne : path ≠ [])
    (hrect : ∀ r ∈ path, r.length = m) :
    (List.range path.headI.length).map (fun i =>
      interpGrid (path.map (fun r => r.getD i 0)) ((path.length : ℝ) - 1)) =
      path.getLastD [] := by
  have hm : path.headI.length = m := hrect _ (headI_mem_of_ne_nil hne)
  have hlm : (path.getLastD []).length = m :=
    hrect _ (getLastD_mem_of_ne_nil _ hne)
  calc (List.range path.headI.length).map (fun i =>
        interpGrid (path.map (fun r => r.getD i 0)) ((path.length : ℝ) - 1))
      = (List.range path.headI.length).map
          (fun i => (path.getLastD []).getD i 0) := by
        refine List.map_congr_left (fun i _ => ?_)
        have hcne : path.map (fun r => r.getD i 0) ≠ [] := by
          simpa using hne
        have hlen : ((path.map (fun r => r.getD i 0)).length : ℝ) - 1 =
            (path.length : ℝ) - 1 := by simp
        rw [← hlen, interpGrid_last hcne,
          getLastD_map_of_ne_nil _ _ [] hne]
    _ = path.getLastD [] := by
        rw [hm, ← hlm]
        exact map_getD_range_self _ _

theorem sample_path_to_length_spec (path : List (List ℝ)) (m S : ℕ)
    (hne : path ≠ []) (hrect : ∀ r ∈ path, r.length = m) (hS : 1 ≤ S) :
    (sample_path_to_length path S).length = S ∧
    (sample_path_to_length path S).getD 0 [] = path.headI ∧
    (2 ≤ S →
      (sample_path_to_length path S).getD (S - 1) [] = path.getLastD []) := by
  refine ⟨?_, ?_, ?_⟩
  · unfold sample_path_to_length
    rw [List.length_map, length_linspaceL]
  · rw [sample_getD path (show 0 < S by omega), linspaceVal_zero]
    exact sample_row_head path hne
  · intro h2
    rw [sample_getD path (show S - 1 < S by omega),
      linspaceVal_last _ _ h2]
    exact sample_row_last path m hne hrect

/-- C5 fails as stated for requested length `S = 1`: resampling the raw
path `[[0], [1]]` to a single row yields `[[0]]`, whose last row `[0]`
differs from the raw path's last row `[1]`. -/
theorem C5_counterexample :
    (sample_path_to_length [[(0 : ℝ)], [(1 : ℝ)]] 1).getLastD [] ≠
      ([[(0 : ℝ)], [(1 : ℝ)]] : List (List ℝ)).getLastD [] := by
  have h1 : sample_path_to_length [[(0 : ℝ)], [(1 : ℝ)]] 1 = [[(0 : ℝ)]] := by
    unfold sample_path_to_length linspaceL linspaceVal
    norm_num [List.range_succ, interpGrid_zero]
  rw [h1]
  intro hcontra
  simp at hcontra

/-- C5 amended: for every non-empty rectangular raw path and requested
length `S ≥ 1`, `sample_path_to_length` returns exactly `S` rows and its
first row equals the raw path's first row; when additionally `S ≥ 2`
(which the counterexample shows is needed), its last row equals the raw
path's last row. -/
theorem C5_sample_path_amended (path : List (List ℝ)) (m S : ℕ)
    (hne : path ≠ []) (hrect : ∀ r ∈ path, r.length = m) (hS : 1 ≤ S) :
    (sample_path_to_length path S).length = S ∧
    (sample_path_to_length path S).getD 0 [] = path.headI ∧
    (2 ≤ S →
      (sample_path_to_length path S).getD (S - 1) [] = path.getLastD []) :=
  sample_path_to_length_spec path m S hne hrect hS

/-- Witness for the amended C5 on the raw path `[[0], [1]]` resampled to
`S = 2` rows. -/
theorem C5_witness :
    (sample_path_to_length [[(0 : ℝ)], [(1 : ℝ)]] 2).length = 2 ∧
    (sample_path_to_length [[(0 : ℝ)], [(1 : ℝ)]] 2).getD 0 [] = [(0 : ℝ)] ∧
    (sample_path_to_length [[(0 : ℝ)], [(1 : ℝ)]] 2).getD 1 [] = [(1 : ℝ)] := by
  have h := C5_sample_path_amended [[(0 : ℝ)], [(1 : ℝ)]] 1 2 (by simp)
    (by simp) (by norm_num)
  exact ⟨h.1, h.2.1, h.2.2 (by norm_num)⟩

/-- C8 fails in one corner as stated: with requested step count `1` and a
successful raw path `[[0], [1]]`, the returned path is `[[0]]` — it does
have exactly `steps = 1` rows, but its last row `[0]` does not preserve
the raw path's end configuration `[1]`. -/
theorem C8_counterexample :
    rrt_path (some [[(0 : ℝ)], [(1 : ℝ)]]) 1 =
      some [[(0 : ℝ)]] ∧
    ([[(0 : ℝ)]] : List (List ℝ)).getLastD [] ≠
      ([[(0 : ℝ)], [(1 : ℝ)]] : List (List ℝ)).getLastD [] := by
  constructor
  · show (if ([[(0 : ℝ)], [(1 : ℝ)]] : List (List ℝ)).isEmpty then
        some [[(0 : ℝ)], [(1 : ℝ)]]
      else some (sample_path_to_length [[(0 : ℝ)], [(1 : ℝ)]] 1)) =
      some [[(0 : ℝ)]]
    rw [if_neg (by simp)]
    have h1 : sample_path_to_length [[(0 : ℝ)], [(1 : ℝ)]] 1 = [[(0 : ℝ)]] := by
      unfold sample_path_to_length linspaceL linspaceVal
      norm_num [List.range_succ, interpGrid_zero]
    rw [h1]
  · intro hcontra
    simpa using hcontra

/-- C8 amended: `rrt_path` maps a planner failure (`None`) to `None`
rather than raising; for every successful non-empty rectangular raw path
it returns the resampled path, which has exactly `steps` rows for every
requested step count, and which for `steps ≥ 2` (the restriction the
counterexample forces, for endpoint preservation only) also preserves
the raw path's first and last configurations. -/
theorem C8_rrt_amended (steps : ℕ) :
    rrt_path none steps = none ∧
    (∀ (p : List (List ℝ)) (m : ℕ), p ≠ [] → (∀ r ∈ p, r.length = m) →
      ∃ q, rrt_path (some p) steps = some q ∧ q.length = steps ∧
        (2 ≤ steps →
          q.getD 0 [] = p.headI ∧ q.getD (steps - 1) [] = p.getLastD [])) := by
  constructor
  · rfl
  · intro p m hne hrect
    refine ⟨sample_path_to_length p steps, ?_, ?_, ?_⟩
    · show (if p.isEmpty then some p
          else some (sample_path_to_length p steps)) =
        some (sample_path_to_length p steps)
      rw [if_neg (by simpa [List.isEmpty_iff] using hne)]
    · unfold sample_path_to_length
      rw [List.length_map, length_linspaceL]
    · intro h2
      have hspec := sample_path_to_length_spec p m steps hne hrect (by omega)
      exact ⟨hspec.2.1, hspec.2.2 h2⟩

/-- Witness for the amended C8: planner failure maps to `none`, and the
successful raw path `[[0], [1]]` with `steps = 2` is resampled to
exactly 2 rows with both endpoint rows preserved. -/
theorem C8_witness :
    rrt_path none 2 = none ∧
    (∃ q, rrt_path (some [[(0 : ℝ)], [(1 : ℝ)]]) 2 = some q ∧
      q.length = 2 ∧ q.getD 0 [] = [(0 : ℝ)] ∧ q.getD 1 [] = [(1 : ℝ)]) := by
  refine ⟨(C8_rrt_amended 2).1, ?_⟩
  obtain ⟨q, hq, hlen, hends⟩ :=
    (C8_rrt_amended 2).2 [[(0 : ℝ)], [(1 : ℝ)]] 1 (by simp) (by simp)
  obtain ⟨h0, h1⟩ := hends (by norm_num)
  exact ⟨q, hq, hlen, by simpa using h0, by simpa using h1⟩

theorem linear_getD (s e : List ℝ) {S t : ℕ} (h : t < S) :
    (linear_interp_path s e S true).getD t [] =
      ((clip_joint_vals s).zip (clip_joint_vals e)).map
        (fun p => linspaceVal p.1 p.2 S t) := by
  unfold linear_interp_path
  rw [if_pos rfl, if_pos rfl]
  exact getD_map_range _ _ h

theorem cubic_getD (s e : List ℝ) {S t : ℕ} (h : t < S) :
    (cubic_interp_path s e S true).getD t [] =
      ((clip_joint_vals s).zip (clip_joint_vals e)).map
        (fun p => cubicVal p.1 p.2 (linspaceVal 0 1 S t)) := by
  unfold cubic_interp_path
  rw [if_pos rfl, if_pos rfl]
  exact getD_map_range _ _ h

theorem cubicVal_zero (a b : ℝ) : cubicVal a b 0 = a := by
  unfold cubicVal
  ring

theorem cubicVal_one (a b : ℝ) : cubicVal a b 1 = b := by
  unfold cubicVal
  ring

theorem clip_length (cfg : List ℝ) : (clip_joint_vals cfg).length = cfg.length := by
  unfold clip_joint_vals
  simp

theorem map_fst_zip_of_length_eq {α β : Type*} (l1 : List α) (l2 : List β)
    (h : l1.length = l2.length) : (l1.zip l2).map Prod.fst = l1 :=
  List.map_fst_zip l1 l2 (le_of_eq h)

theorem map_snd_zip_of_length_eq {α β : Type*} (l1 : List α) (l2 : List β)
    (h : l2.length = l1.length) : (l1.zip l2).map Prod.snd = l2 :=
  List.map_snd_zip l1 l2 (le_of_eq h)

theorem linspaceVal_mono {a b : ℝ} {S t1 t2 : ℕ} (hS : 2 ≤ S) (hab : a ≤ b)
    (h12 : t1 ≤ t2) : linspaceVal a b S t1 ≤ linspaceVal a b S t2 := by
  unfold linspaceVal
  simp only [if_neg (show ¬ S = 1 by omega)]
  have hpos : (0 : ℝ) < (S : ℝ) - 1 := by
    have h2S : (2 : ℝ) ≤ (S : ℝ) := by exact_mod_cast hS
    linarith
  have ht : (t1 : ℝ) ≤ (t2 : ℝ) := by exact_mod_cast h12
  have h1 : (b - a) * (t1 : ℝ) ≤ (b - a) * (t2 : ℝ) := by nlinarith
  have h2 : (b - a) * (t1 : ℝ) / ((S : ℝ) - 1) ≤
      (b - a) * (t2 : ℝ) / ((S : ℝ) - 1) :=
    div_le_div_of_nonneg_right h1 hpos.le
  linarith

theorem linspaceVal_anti {a b : ℝ} {S t1 t2 : ℕ} (hS : 2 ≤ S) (hab : b ≤ a)
    (h12 : t1 ≤ t2) : linspaceVal a b S t2 ≤ linspaceVal a b S t1 := by
  unfold linspaceVal
  simp only [if_neg (show ¬ S = 1 by omega)]
  have hpos : (0 : ℝ) < (S : ℝ) - 1 := by
    have h2S : (2 : ℝ) ≤ (S : ℝ) := by exact_mod_cast hS
    linarith
  have ht : (t1 : ℝ) ≤ (t2 : ℝ) := by exact_mod_cast h12
  have h1 : (b - a) * (t2 : ℝ) ≤ (b - a) * (t1 : ℝ) := by nlinarith
  have h2 : (b - a) * (t2 : ℝ) / ((S : ℝ) - 1) ≤
      (b - a) * (t1 : ℝ) / ((S : ℝ) - 1) :=
    div_le_div_of_nonneg_right h1 hpos.le
  linarith

theorem linear_entry (s e : List ℝ) (hlen : s.length = e.length)
    {S t j : ℕ} (ht : t < S) (hj : j < s.length) :
    ((linear_interp_path s e S true).getD t []).getD j 0 =
      linspaceVal ((clip_joint_vals s).getD j 0)
        ((clip_joint_vals e).getD j 0) S t := by
  rw [linear_getD s e ht]
  have hzlen : ((clip_joint_vals s).zip (clip_joint_vals e)).length =
      s.length := by
    rw [List.length_zip, clip_length, clip_length, hlen, min_self, ← hlen]
  have hj2 : j < ((clip_joint_vals s).zip (clip_joint_vals e)).length := by
    omega
  rw [List.getD_eq_getElem _ _ (by simpa using hj2), List.getElem_map,
    List.getElem_zip]
  rw [List.getD_eq_getElem _ _ (by rw [clip_length]; exact hj),
    List.getD_eq_getElem _ _ (by rw [clip_length, ← hlen]; exact hj)]

/-- C4: with `limit_joints` enabled and equal-length start and end
configurations, both `linear_interp_path` and `cubic_interp_path` return
exactly `steps` configurations whose first row is the normalized start
and whose last row is the normalized end, and each joint of the linear
path moves monotonically between its normalized start and end value. -/
theorem C4_linear_cubic_interp (s e : List ℝ) (S : ℕ)
    (hlen : s.length = e.length) (hS : 2 ≤ S) :
    (linear_interp_path s e S true).length = S ∧
    (linear_interp_path s e S true).getD 0 [] = clip_joint_vals s ∧
    (linear_interp_path s e S true).getD (S - 1) [] = clip_joint_vals e ∧
    (cubic_interp_path s e S true).length = S ∧
    (cubic_interp_path s e S true).getD 0 [] = clip_joint_vals s ∧
    (cubic_interp_path s e S true).getD (S - 1) [] = clip_joint_vals e ∧
    (∀ j, j < s.length → ∀ t1 t2 : ℕ, t1 ≤ t2 → t2 < S →
      ((clip_joint_vals s).getD j 0 ≤ (clip_joint_vals e).getD j 0 →
        ((linear_interp_path s e S true).getD t1 []).getD j 0 ≤
          ((linear_interp_path s e S true).getD t2 []).getD j 0) ∧
      ((clip_joint_vals e).getD j 0 ≤ (clip_joint_vals s).getD j 0 →
        ((linear_interp_path s e S true).getD t2 []).getD j 0 ≤
          ((linear_interp_path s e S true).getD t1 []).getD j 0)) := by
  have hclen : (clip_joint_vals s).length = (clip_joint_vals e).length := by
    rw [clip_length, clip_length, hlen]
  refine ⟨?_, ?_, ?_, ?_, ?_, ?_, ?_⟩
  · unfold linear_interp_path
    rw [List.length_map, List.length_range]
  · rw [linear_getD s e (show 0 < S by omega)]
    calc ((clip_joint_vals s).zip (clip_joint_vals e)).map
          (fun p => linspaceVal p.1 p.2 S 0)
        = ((clip_joint_vals s).zip (clip_joint_vals e)).map Prod.fst := by
          refine List.map_congr_left (fun p _ => ?_)
          exact linspaceVal_zero p.1 p.2 S
      _ = clip_joint_vals s := map_fst_zip_of_length_eq _ _ hclen
  · rw [linear_getD s e (show S - 1 < S by omega)]
    calc ((clip_joint_vals s).zip (clip_joint_vals e)).map
          (fun p => linspaceVal p.1 p.2 S (S - 1))
        = ((clip_joint_vals s).zip (clip_joint_vals e)).map Prod.snd := by
          refine List.map_congr_left (fun p _ => ?_)
          exact linspaceVal_last p.1 p.2 hS
      _ = clip_joint_vals e := map_snd_zip_of_length_eq _ _ hclen.symm
  · unfold cubic_interp_path
    rw [List.length_map, List.length_range]
  · rw [cubic_getD s e (show 0 < S by omega), linspaceVal_zero]
    calc ((clip_joint_vals s).zip (clip_joint_vals e)).map
          (fun p => cubicVal p.1 p.2 0)
        = ((clip_joint_vals s).zip (clip_joint_vals e)).map Prod.fst := by
          refine List.map_congr_left (fun p _ => ?_)
          exact cubicVal_zero p.1 p.2
      _ = clip_joint_vals s := map_fst_zip_of_length_eq _ _ hclen
  · rw [cubic_getD s e (show S - 1 < S by omega), linspaceVal_last 0 1 hS]
    calc ((clip_joint_vals s).zip (clip_joint_vals e)).map
          (fun p => cubicVal p.1 p.2 1)
        = ((clip_joint_vals s).zip (clip_joint_vals e)).map Prod.snd := by
          refine List.map_congr_left (fun p _ => ?_)
          exact cubicVal_one p.1 p.2
      _ = clip_joint_vals e := map_snd_zip_of_length_eq _ _ hclen.symm
  · intro j hj t1 t2 h12 ht2
    have ht1 : t1 < S := by omega
    rw [linear_entry s e hlen ht1 hj, linear_entry s e hlen ht2 hj]
    constructor
    · intro hab
      exact linspaceVal_mono hS hab h12
    · intro hba
      exact linspaceVal_anti hS hba h12

/-- Witness for C4 at `s = [0]`, `e = [1]`, `steps = 2`. -/
theorem C4_witness :
    (linear_interp_path [(0 : ℝ)] [(1 : ℝ)] 2 true).length = 2 ∧
    (cubic_interp_path [(0 : ℝ)] [(1 : ℝ)] 2 true).length = 2 :=
  ⟨(C4_linear_cubic_interp [(0 : ℝ)] [(1 : ℝ)] 2 rfl (by norm_num)).1,
   (C4_linear_cubic_interp [(0 : ℝ)] [(1 : ℝ)] 2 rfl (by norm_num)).2.2.2.1⟩

theorem det_mul_transpose_eq_zero_of_vecMul {k n : ℕ}
    {J : Matrix (Fin k) (Fin n) ℝ} {v : Fin k → ℝ} (hv : v ≠ 0)
    (h : Matrix.vecMul v J = 0) : (J * J.transpose).det = 0 := by
  apply Matrix.exists_vecMul_eq_zero_iff.mp
  refine ⟨v, hv, ?_⟩
  rw [← Matrix.vecMul_vecMul, h, Matrix.zero_vecMul]

/-- C7: `calculate_manipulability` is nonnegative for every Jacobian in
both the planar and the full 6-DOF mode, equals
`sqrt(det(J * J.transpose))` for the corresponding reduced or stacked
Jacobian `J`, and vanishes at rank-deficient (singular) configurations,
i.e. whenever some nonzero row combination of `J` is zero. -/
theorem C7_manipulability (n : ℕ) (jac_t jac_r : Matrix (Fin 3) (Fin n) ℝ) :
    0 ≤ calculate_manipulability n jac_t jac_r true ∧
    0 ≤ calculate_manipulability n jac_t jac_r false ∧
    calculate_manipulability n jac_t jac_r true =
      Real.sqrt (planarJac n jac_t jac_r *
        (planarJac n jac_t jac_r).transpose).det ∧
    calculate_manipulability n jac_t jac_r false =
      Real.sqrt (stackJac n jac_t jac_r *
        (stackJac n jac_t jac_r).transpose).det ∧
    ((∃ v : Fin 3 → ℝ, v ≠ 0 ∧
        Matrix.vecMul v (planarJac n jac_t jac_r) = 0) →
      calculate_manipulability n jac_t jac_r true = 0) ∧
    ((∃ v : Fin 6 → ℝ, v ≠ 0 ∧
        Matrix.vecMul v (stackJac n jac_t jac_r) = 0) →
      calculate_manipulability n jac_t jac_r false = 0) := by
  have hplanar : calculate_manipulability n jac_t jac_r true =
      Real.sqrt (planarJac n jac_t jac_r *
        (planarJac n jac_t jac_r).transpose).det := by
    unfold calculate_manipulability
    rw [if_pos rfl]
  have hfull : calculate_manipulability n jac_t jac_r false =
      Real.sqrt (stackJac n jac_t jac_r *
        (stackJac n jac_t jac_r).transpose).det := by
    unfold calculate_manipulability
    rw [if_neg (by simp)]
  refine ⟨?_, ?_, hplanar, hfull, ?_, ?_⟩
  · rw [hplanar]; exact Real.sqrt_nonneg _
  · rw [hfull]; exact Real.sqrt_nonneg _
  · rintro ⟨v, hv, hvJ⟩
    rw [hplanar, det_mul_transpose_eq_zero_of_vecMul hv hvJ, Real.sqrt_zero]
  · rintro ⟨v, hv, hvJ⟩
    rw [hfull, det_mul_transpose_eq_zero_of_vecMul hv hvJ, Real.sqrt_zero]

/-- Witness for C7: at the all-zero `3 x 1` Jacobians (a fully singular
configuration of a one-joint robot), the planar manipulability is `0`. -/
theorem C7_witness : calculate_manipulability 1 0 0 true = 0 := by
  apply (C7_manipulability 1 0 0).2.2.2.2.1
  refine ⟨fun _ => 1, ?_, ?_⟩
  · intro h
    exact one_ne_zero (congrFun h 0)
  · funext j
    simp [planarJac, Matrix.vecMul, Matrix.dotProduct, Fin.sum_univ_three]

theorem list_sum_map_range (f : ℕ → ℕ) (n : ℕ) :
    ((List.range n).map f).sum = ∑ i ∈ Finset.range n, f i := by
  induction n with
  | zero => simp
  | succ k ih =>
    rw [List.range_succ, List.map_append, List.sum_append,
      Finset.sum_range_succ, ih]
    simp

theorem length_segmentOf (traj : ℕ → List ℝ) (steps i : ℕ) :
    (segmentOf traj steps i).length = segSteps steps i := by
  unfold segmentOf
  rw [List.length_map, length_linspaceL]

theorem length_combineSegs_cons {α : Type*} (s : List α)
    (rest : List (List α)) :
    (combineSegs (s :: rest)).length =
      s.length + (rest.map (fun seg => seg.length - 1)).sum := by
  unfold combineSegs
  rw [List.length_append, List.length_flatten, List.map_map]
  have hmap : List.map (List.length ∘ fun seg => List.drop 1 seg) rest =
      List.map (fun seg => seg.length - 1) rest := by
    refine List.map_congr_left (fun seg _ => ?_)
    simp
  rw [hmap]

theorem sum_base_extra (steps : ℕ) :
    ∑ i ∈ Finset.range 26,
      ((steps - 1) / 26 + (if i < (steps - 1) % 26 then 1 else 0)) =
      steps - 1 := by
  have hfil : (Finset.range 26).filter (fun i => i < (steps - 1) % 26) =
      Finset.range ((steps - 1) % 26) := by
    ext i
    simp only [Finset.mem_filter, Finset.mem_range]
    omega
  rw [Finset.sum_add_distrib, Finset.sum_const, Finset.card_range,
    smul_eq_mul, ← Finset.sum_filter, hfil, Finset.sum_const,
    Finset.card_range, smul_eq_mul]
  omega

theorem sum_segSteps (steps : ℕ) (h : 1 ≤ steps) :
    ∑ i ∈ Finset.range 26, segSteps steps i = steps + 25 := by
  calc ∑ i ∈ Finset.range 26, segSteps steps i
      = (∑ i ∈ Finset.range 26,
          ((steps - 1) / 26 + (if i < (steps - 1) % 26 then 1 else 0))) +
        26 := by
        unfold segSteps
        rw [Finset.sum_add_distrib, Finset.sum_const, Finset.card_range,
          smul_eq_mul, mul_one]
    _ = (steps - 1) + 26 := by rw [sum_base_extra]
    _ = steps + 25 := by omega

theorem length_combined (traj : ℕ → List ℝ) (steps : ℕ) (h : 1 ≤ steps) :
    (combineSegs ((List.range 26).map (segmentOf traj steps))).length =
      steps := by
  rw [List.range_succ_eq_map, List.map_cons, length_combineSegs_cons,
    List.map_map, List.map_map]
  have hcongr : (List.range 25).map
      (((fun seg : List (List ℝ) => seg.length - 1) ∘
        segmentOf traj steps) ∘ Nat.succ) =
      (List.range 25).map (fun i =>
        (steps - 1) / 26 + (if i + 1 < (steps - 1) % 26 then 1 else 0)) := by
    refine List.map_congr_left (fun i _ => ?_)
    simp only [Function.comp_apply, length_segmentOf, segSteps,
      Nat.succ_eq_add_one]
    omega
  rw [hcongr, length_segmentOf, list_sum_map_range]
  have hbase := sum_base_extra steps
  rw [Finset.sum_range_succ' _ 25] at hbase
  unfold segSteps
  omega

theorem length_setEnds {α : Type*} (l : List α) (a b : α) :
    (setEnds l a b).length = l.length := by
  unfold setEnds
  simp

theorem setEnds_getD_zero {α : Type*} (l : List α) (a b d : α)
    (h : 2 ≤ l.length) :
    (setEnds l a b).getD 0 d = a := by
  unfold setEnds
  rw [List.getD_eq_getElem _ _ (by simp; omega)]
  rw [List.getElem_set_ne (by omega)]
  exact List.getElem_set_self (by simp; omega)

theorem setEnds_getD_last {α : Type*} (l : List α) (a b d : α)
    (h : 1 ≤ l.length) :
    (setEnds l a b).getD (l.length - 1) d = b := by
  unfold setEnds
  rw [List.getD_eq_getElem _ _ (by simp; omega)]
  exact List.getElem_set_self (by simp; omega)

theorem getD_map_clip (l : List (List ℝ)) (n : ℕ) (h : n < l.length) :
    (l.map clip_joint_vals).getD n [] = clip_joint_vals (l.getD n []) := by
  rw [List.getD_eq_getElem _ _ (by simpa using h), List.getElem_map,
    List.getD_eq_getElem _ _ h]

theorem smoothStart_getD (ts : ℕ) (l : List (List ℝ)) {i : ℕ}
    (h : i < l.length) (hcond : ¬ (1 ≤ i ∧ i < ts)) :
    (smoothStart ts l).getD i [] = l.getD i [] := by
  unfold smoothStart
  rw [List.getD_eq_getElem _ _ (by simpa using h), List.getElem_mapIdx,
    if_neg hcond, List.getD_eq_getElem _ _ h]

theorem smoothEnd_getD (steps ts : ℕ) (l : List (List ℝ)) {i : ℕ}
    (h : i < l.length) (hcond : ¬ (steps - ts ≤ i ∧ i + 2 ≤ steps)) :
    (smoothEnd steps ts l).getD i [] = l.getD i [] := by
  unfold smoothEnd
  rw [List.getD_eq_getElem _ _ (by simpa using h), List.getElem_mapIdx,
    if_neg hcond, List.getD_eq_getElem _ _ h]

theorem length_smoothStart (ts : ℕ) (l : List (List ℝ)) :
    (smoothStart ts l).length = l.length := by
  unfold smoothStart
  simp

theorem length_smoothEnd (steps ts : ℕ) (l : List (List ℝ)) :
    (smoothEnd steps ts l).length = l.length := by
  unfold smoothEnd
  simp

theorem transitionSteps_lt (steps : ℕ) (h : 1 ≤ steps) :
    transitionSteps steps < steps := by
  unfold transitionSteps
  omega

theorem clip_eq_self_of_window (cfg : List ℝ)
    (h : ∀ x ∈ cfg, x ∈ Set.Icc (-3 : ℝ) 3) :
    clip_joint_vals cfg = cfg := by
  unfold clip_joint_vals
  have hall : ∀ x ∈ cfg, clipVal x = x := fun x hx =>
    clipVal_eval_mid (h x hx).1 (h x hx).2
  calc cfg.map clipVal = cfg.map id := List.map_congr_left hall
  _ = cfg := List.map_id cfg

theorem length_postProcess (traj : ℕ → List ℝ) (steps : ℕ)
    (a b : List ℝ) (h : 1 ≤ steps) :
    (postProcess traj steps a b).length = steps := by
  unfold postProcess
  rw [length_smoothEnd, length_smoothStart, List.length_map, length_setEnds,
    length_combined traj steps h]

theorem postProcess_getD_zero (traj : ℕ → List ℝ) (steps : ℕ)
    (a b : List ℝ) (h : 2 ≤ steps) (ha : clip_joint_vals a = a) :
    (postProcess traj steps a b).getD 0 [] = a := by
  unfold postProcess
  have hts := transitionSteps_lt steps (by omega)
  have hcomb := length_combined traj steps (by omega)
  have hlen1 : ((setEnds (combineSegs ((List.range 26).map
      (segmentOf traj steps))) a b).map clip_joint_vals).length = steps := by
    rw [List.length_map, length_setEnds, hcomb]
  have hlen2 : (smoothStart (transitionSteps steps)
      ((setEnds (combineSegs ((List.range 26).map (segmentOf traj steps)))
        a b).map clip_joint_vals)).length = steps := by
    rw [length_smoothStart, hlen1]
  rw [smoothEnd_getD _ _ _ (by omega) (by omega),
    smoothStart_getD _ _ (by omega) (by omega),
    getD_map_clip _ _ (by rw [length_setEnds, hcomb]; omega),
    setEnds_getD_zero _ _ _ _ (by rw [hcomb]; omega), ha]

theorem postProcess_getD_last (traj : ℕ → List ℝ) (steps : ℕ)
    (a b : List ℝ) (h : 2 ≤ steps) (hb : clip_joint_vals b = b) :
    (postProcess traj steps a b).getD (steps - 1) [] = b := by
  unfold postProcess
  have hts := transitionSteps_lt steps (by omega)
  have hcomb := length_combined traj steps (by omega)
  have hlen1 : ((setEnds (combineSegs ((List.range 26).map
      (segmentOf traj steps))) a b).map clip_joint_vals).length = steps := by
    rw [List.length_map, length_setEnds, hcomb]
  have hlen2 : (smoothStart (transitionSteps steps)
      ((setEnds (combineSegs ((List.range 26).map (segmentOf traj steps)))
        a b).map clip_joint_vals)).length = steps := by
    rw [length_smoothStart, hlen1]
  have hset : (setEnds (combineSegs ((List.range 26).map
      (segmentOf traj steps))) a b).getD
        ((combineSegs ((List.range 26).map (segmentOf traj steps))).length - 1)
        [] = b :=
    setEnds_getD_last _ _ _ _ (by rw [hcomb]; omega)
  rw [smoothEnd_getD _ _ _ (by omega) (by omega),
    smoothStart_getD _ _ (by omega) (by omega),
    getD_map_clip _ _ (by rw [length_setEnds, hcomb]; omega)]
  rw [show steps - 1 = (combineSegs ((List.range 26).map
    (segmentOf traj steps))).length - 1 by rw [hcomb]]
  rw [hset, hb]

/-- C3: for every step budget `steps ≥ 2`, `task_and_joint_interp`
returns exactly `steps` rows; the per-segment budgets add up to
`steps + 25`, so concatenating the 26 segments while dropping the 25
duplicated boundary rows (one per later segment) leaves exactly `steps`
rows with each boundary kept once; and — provided normalizing the home
and end configurations lands inside the `[-3, 3]` window, as it does for
the robot's actual home configuration — the first row is the normalized
home configuration and the last row is the normalized end
configuration.  In particular this covers `steps = 250` with 25
midpoints, i.e. 26 segments. -/
theorem C3_segmented_step_budget (start_pose end_pose : List ℝ)
    (end_config home_config : List ℝ)
    (ik : List ℝ → List ℝ → List ℝ → List ℝ) (steps : ℕ) (hS : 2 ≤ steps)
    (hhome : ∀ x ∈ clip_joint_vals home_config, x ∈ Set.Icc (-3 : ℝ) 3)
    (hend : ∀ x ∈ clip_joint_vals end_config, x ∈ Set.Icc (-3 : ℝ) 3) :
    (task_and_joint_interp start_pose end_pose end_config home_config
      ik steps).length = steps ∧
    (∑ i ∈ Finset.range 26, segSteps steps i) = steps + 25 ∧
    (task_and_joint_interp start_pose end_pose end_config home_config
      ik steps).getD 0 [] = clip_joint_vals home_config ∧
    (task_and_joint_interp start_pose end_pose end_config home_config
      ik steps).getD (steps - 1) [] = clip_joint_vals end_config := by
  have hidemH : clip_joint_vals (clip_joint_vals home_config) =
      clip_joint_vals home_config := clip_eq_self_of_window _ hhome
  have hidemE : clip_joint_vals (clip_joint_vals end_config) =
      clip_joint_vals end_config := clip_eq_self_of_window _ hend
  unfold task_and_joint_interp
  exact ⟨length_postProcess _ _ _ _ (by omega),
    sum_segSteps steps (by omega),
    postProcess_getD_zero _ _ _ _ hS hidemH,
    postProcess_getD_last _ _ _ _ hS hidemE⟩

/-- Witness for C3 at `steps = 250` (the spotlighted budget) with the
identity-like IK stub and zero home and end configurations. -/
theorem C3_witness :
    (task_and_joint_interp [] [] [(0 : ℝ)] [(0 : ℝ)]
      (fun _ _ s => s) 250).length = 250 ∧
    (∑ i ∈ Finset.range 26, segSteps 250 i) = 275 := by
  have hwin : ∀ x ∈ clip_joint_vals [(0 : ℝ)], x ∈ Set.Icc (-3 : ℝ) 3 := by
    intro x hx
    have h0 : clipVal 0 = 0 := clipVal_eval_mid (by norm_num) (by norm_num)
    unfold clip_joint_vals at hx
    simp only [List.map_cons, List.map_nil, h0, List.mem_singleton] at hx
    subst hx
    constructor <;> norm_num
  have h := C3_segmented_step_budget [] [] [(0 : ℝ)] [(0 : ℝ)]
    (fun _ _ s => s) 250 (by norm_num) hwin hwin
  exact ⟨h.1, h.2.1⟩

theorem option_some_bind {α β : Type} (a : α) (f : α → Option β) :
    ((some a : Option α) >>= f) = f a := rfl

theorem option_none_bind {α β : Type} (f : α → Option β) :
    ((none : Option α) >>= f) = none := rfl

theorem assignRow6_length {v r : List ℝ} (h : assignRow6 v = some r) :
    r.length = 6 := by
  unfold assignRow6 at h
  split at h
  · rename_i h6
    injection h with heq
    rw [← heq]
    exact h6
  · split at h
    · injection h with heq
      rw [← heq]
      simp
    · cases h

theorem assignRow6_of_six {v : List ℝ} (h : v.length = 6) :
    assignRow6 v = some v := by
  unfold assignRow6
  rw [if_pos h]

theorem assignRow6_none {v : List ℝ} (h1 : v.length ≠ 6)
    (h2 : v.length ≠ 1) : assignRow6 v = none := by
  unfold assignRow6
  rw [if_neg h1, if_neg h2]

theorem trajRowsGen_six (start_pose end_pose : List ℝ)
    (ik : List ℝ → List ℝ → List ℝ → List ℝ) (row0 : List ℝ)
    (h0 : row0.length = 6) (hik : ∀ p o s, (ik p o s).length = 6) :
    ∀ i, ∃ r, trajRowsGen 6 start_pose end_pose ik row0 i = some r ∧
      r.length = 6 := by
  intro i
  induction i with
  | zero => exact ⟨row0, rfl, h0⟩
  | succ k ih =>
    rcases ih with ⟨r, hr, hrlen⟩
    refine ⟨clip_joint_vals (ik ((poseAt start_pose end_pose (k + 1)).take 3)
      ((poseAt start_pose end_pose (k + 1)).drop 3) r), ?_, ?_⟩
    · simp only [trajRowsGen, hr, option_some_bind]
      have hstep : ikStep 6 ik (poseAt start_pose end_pose (k + 1)) r =
          some (ik ((poseAt start_pose end_pose (k + 1)).take 3)
            ((poseAt start_pose end_pose (k + 1)).drop 3) r) := by
        unfold ikStep
        rw [if_pos hrlen]
      rw [hstep, option_some_bind]
      exact assignRow6_of_six (by rw [clip_length, hik])
    · rw [clip_length, hik]

theorem trajRowsGen_stuck (n : ℕ) (hn : n ≠ 6) (start_pose end_pose : List ℝ)
    (ik : List ℝ → List ℝ → List ℝ → List ℝ) (row0 : List ℝ)
    (h0 : row0.length = 6) :
    ∀ i, 1 ≤ i → trajRowsGen n start_pose end_pose ik row0 i = none := by
  intro i
  induction i with
  | zero => intro h; omega
  | succ k ih =>
    intro _
    by_cases hk : 1 ≤ k
    · simp only [trajRowsGen, ih hk, option_none_bind]
    · have hk0 : k = 0 := by omega
      subst hk0
      have hstep : ikStep n ik (poseAt start_pose end_pose 1) row0 = none := by
        unfold ikStep
        rw [if_neg (by omega)]
      simp only [trajRowsGen, option_some_bind, hstep, option_none_bind]

theorem length_blend (a b : List ℝ) (t : ℝ) :
    (blend a b t).length = min a.length b.length := by
  unfold blend
  simp

theorem mem_combineSegs {α : Type*} {segs : List (List α)} {x : α}
    (h : x ∈ combineSegs segs) : ∃ seg ∈ segs, x ∈ seg := by
  cases segs with
  | nil => cases h
  | cons s rest =>
    unfold combineSegs at h
    rcases List.mem_append.1 h with h1 | h2
    · exact ⟨s, List.mem_cons_self s rest, h1⟩
    · rcases List.mem_flatten.1 h2 with ⟨l, hl, hx⟩
      rcases List.mem_map.1 hl with ⟨seg, hseg, rfl⟩
      exact ⟨seg, List.mem_cons_of_mem s hseg, List.drop_subset 1 seg hx⟩

theorem mem_setEnds {α : Type*} {l : List α} {a b x : α}
    (h : x ∈ setEnds l a b) : x ∈ l ∨ x = a ∨ x = b := by
  unfold setEnds at h
  rcases List.mem_or_eq_of_mem_set h with h1 | h1
  · rcases List.mem_or_eq_of_mem_set h1 with h2 | h2
    · exact Or.inl h2
    · exact Or.inr (Or.inl h2)
  · exact Or.inr (Or.inr h1)

theorem rows_combined_length (traj : ℕ → List ℝ) (steps : ℕ)
    (htraj : ∀ i, i ≤ 26 → (traj i).length = 6) :
    ∀ row ∈ combineSegs ((List.range 26).map (segmentOf traj steps)),
      row.length = 6 := by
  intro row hrow
  rcases mem_combineSegs hrow with ⟨seg, hseg, hrowseg⟩
  rcases List.mem_map.1 hseg with ⟨i, hi, rfl⟩
  unfold segmentOf at hrowseg
  rcases List.mem_map.1 hrowseg with ⟨t, ht, rfl⟩
  have hi26 : i < 26 := List.mem_range.1 hi
  rw [length_blend, htraj i (by omega), htraj (i + 1) (by omega)]
  exact min_self 6

theorem rows_smoothStart_length {ts : ℕ} {l : List (List ℝ)}
    (h : ∀ row ∈ l, row.length = 6) :
    ∀ row ∈ smoothStart ts l, row.length = 6 := by
  intro row hrow
  unfold smoothStart at hrow
  rcases List.mem_mapIdx.1 hrow with ⟨i, hi, heq⟩
  rw [← heq]
  have hne : l ≠ [] := by
    intro hemp
    rw [hemp] at hi
    simp at hi
  by_cases hcond : 1 ≤ i ∧ i < ts
  · rw [if_pos hcond, length_blend, h _ (headI_mem_of_ne_nil hne),
      h _ (List.getElem_mem hi)]
    exact min_self 6
  · rw [if_neg hcond]
    exact h _ (List.getElem_mem hi)

theorem rows_smoothEnd_length {steps ts : ℕ} {l : List (List ℝ)}
    (h : ∀ row ∈ l, row.length = 6) :
    ∀ row ∈ smoothEnd steps ts l, row.length = 6 := by
  intro row hrow
  unfold smoothEnd at hrow
  rcases List.mem_mapIdx.1 hrow with ⟨i, hi, heq⟩
  rw [← heq]
  have hne : l ≠ [] := by
    intro hemp
    rw [hemp] at hi
    simp at hi
  by_cases hcond : steps - ts ≤ i ∧ i + 2 ≤ steps
  · rw [if_pos hcond, length_blend, h _ (List.getElem_mem hi),
      h _ (getLastD_mem_of_ne_nil _ hne)]
    exact min_self 6
  · rw [if_neg hcond]
    exact h _ (List.getElem_mem hi)

theorem rows_postProcess_length (traj : ℕ → List ℝ) (steps : ℕ)
    (a b : List ℝ) (htraj : ∀ i, i ≤ 26 → (traj i).length = 6)
    (ha : a.length = 6) (hb : b.length = 6) :
    ∀ row ∈ postProcess traj steps a b, row.length = 6 := by
  unfold postProcess
  apply rows_smoothEnd_length
  apply rows_smoothStart_length
  intro row hrow
  rcases List.mem_map.1 hrow with ⟨r, hr, rfl⟩
  rw [clip_length]
  rcases mem_setEnds hr with h1 | h1 | h1
  · exact rows_combined_length traj steps htraj r h1
  · rw [h1]; exact ha
  · rw [h1]; exact hb

/-- C10: `task_and_joint_interp` allocates the waypoint trajectory with a
hard-coded width of 6 columns regardless of the robot's controllable
joint count `n`, so every configuration it returns has exactly 6 joint
values; and the pipeline is well-defined — no shape mismatch in the row
assignments and no seed-size mismatch in the IK calls — exactly when
`n = 6`.  (The hypotheses say that the home and end configurations and
every IK solution have one value per controllable joint.) -/
theorem C10_hardcoded_width (n : ℕ) (start_pose end_pose : List ℝ)
    (end_config home_config : List ℝ)
    (ik : List ℝ → List ℝ → List ℝ → List ℝ) (steps : ℕ)
    (hhc : home_config.length = n) (hec : end_config.length = n)
    (hik : ∀ p o s, (ik p o s).length = n) :
    ((task_and_joint_interp_gen n start_pose end_pose end_config
        home_config ik steps).isSome ↔ n = 6) ∧
    (∀ l, task_and_joint_interp_gen n start_pose end_pose end_config
        home_config ik steps = some l → ∀ row ∈ l, row.length = 6) := by
  by_cases hn : n = 6
  · subst hn
    have hclh : (clip_joint_vals home_config).length = 6 := by
      rw [clip_length, hhc]
    have hcle : (clip_joint_vals end_config).length = 6 := by
      rw [clip_length, hec]
    have h0 := assignRow6_of_six hclh
    have hE := assignRow6_of_six hcle
    obtain ⟨r25, h25, _⟩ :=
      trajRowsGen_six start_pose end_pose ik _ hclh hik 25
    have htask : task_and_joint_interp_gen 6 start_pose end_pose end_config
        home_config ik steps =
        some (postProcess
          (fun i => if i = 26 then clip_joint_vals end_config
            else (trajRowsGen 6 start_pose end_pose ik
              (clip_joint_vals home_config) i).getD [])
          steps (clip_joint_vals home_config)
          (clip_joint_vals end_config)) := by
      unfold task_and_joint_interp_gen
      simp only [h0, hE, option_some_bind, h25]
    constructor
    · rw [htask]
      simp
    · intro l hl row hrow
      rw [htask] at hl
      injection hl with hl
      subst hl
      refine rows_postProcess_length _ steps _ _ ?_ hclh hcle row hrow
      intro i hi
      by_cases h26 : i = 26
      · rw [if_pos h26]
        exact hcle
      · rw [if_neg h26]
        obtain ⟨ri, hri, hlen⟩ :=
          trajRowsGen_six start_pose end_pose ik _ hclh hik i
        rw [hri]
        exact hlen
  · have htask : task_and_joint_interp_gen n start_pose end_pose end_config
        home_config ik steps = none := by
      by_cases hn1 : n = 1
      · subst hn1
        have hclh : (clip_joint_vals home_config).length = 1 := by
          rw [clip_length, hhc]
        have hcle : (clip_joint_vals end_config).length = 1 := by
          rw [clip_length, hec]
        have h0 : assignRow6 (clip_joint_vals home_config) =
            some (List.replicate 6 ((clip_joint_vals home_config).getD 0 0)) := by
          unfold assignRow6
          rw [if_neg (by omega), if_pos hclh]
        have hE : assignRow6 (clip_joint_vals end_config) =
            some (List.replicate 6 ((clip_joint_vals end_config).getD 0 0)) := by
          unfold assignRow6
          rw [if_neg (by omega), if_pos hcle]
        have hT := trajRowsGen_stuck 1 (by omega) start_pose end_pose ik
          (List.replicate 6 ((clip_joint_vals home_config).getD 0 0))
          (by simp) 25 (by omega)
        unfold task_and_joint_interp_gen
        simp only [h0, hE, option_some_bind, hT, option_none_bind]
      · have h0 : assignRow6 (clip_joint_vals home_config) = none :=
          assignRow6_none (by rw [clip_length, hhc]; omega)
            (by rw [clip_length, hhc]; omega)
        unfold task_and_joint_interp_gen
        simp only [h0, option_none_bind]
    rw [htask]
    constructor
    · simp [hn]
    · intro l hl
      cases hl

/-- Witness for C10 on an exactly-6-joint robot with zero configurations
and a constant IK stub: the pipeline is well-defined. -/
theorem C10_witness :
    (task_and_joint_interp_gen 6 [] [] (List.replicate 6 (0 : ℝ))
      (List.replicate 6 (0 : ℝ)) (fun _ _ _ => List.replicate 6 (0 : ℝ))
      250).isSome :=
  (C10_hardcoded_width 6 [] [] (List.replicate 6 (0 : ℝ))
    (List.replicate 6 (0 : ℝ)) (fun _ _ _ => List.replicate 6 (0 : ℝ)) 250
    (by simp) (by simp) (fun _ _ _ => by simp)).1.mpr rfl

end LoadRobot
